import Mathlib

/-!
Verification development for the forest-tutorials repository.

The repository's only self-contained numerical logic is the Bell-state
tomography pipeline of `src/unnamed/part_001` (the tomography notebook):
the measurement-setting generator `state_tomo_settings`, the readout
correction step (a call to the vendor routine `correct_experiment_result`),
and the linear-inversion state estimator `linear_inv_state_estimate`,
plus the GHZ program builder `ghz_program` of `src/unnamed/part_000`.

The estimator works on complex matrices whose entries, for Pauli
observables and rational expectation values, always lie in the Gaussian
rationals ℚ[i].  We therefore embed the numerics over an executable
Gaussian-rational scalar type `GaussRat`, which keeps every definition
computable (Mathlib's `ℂ` is not), and model the notebook's floating
point arithmetic as exact arithmetic.  The readout-correction step
involves a square root, so it is modelled separately over `ℝ`.
-/

/-- Gaussian rationals ℚ[i]: the executable stand-in for the complex
floating-point scalars used by the notebook.  `re` and `im` are the real
and imaginary parts. -/
structure GaussRat where
  re : ℚ
  im : ℚ

namespace GaussRat

@[ext] theorem gext {x y : GaussRat} (hre : x.re = y.re) (him : x.im = y.im) : x = y := by
  cases x; cases y; simp_all

instance : DecidableEq GaussRat := fun a b =>
  decidable_of_iff (a.re = b.re ∧ a.im = b.im) (by cases a; cases b; simp)

instance : Zero GaussRat := ⟨⟨0, 0⟩⟩

instance : One GaussRat := ⟨⟨1, 0⟩⟩

instance : Add GaussRat := ⟨fun x y => ⟨x.re + y.re, x.im + y.im⟩⟩

instance : Neg GaussRat := ⟨fun x => ⟨-x.re, -x.im⟩⟩

instance : Mul GaussRat := ⟨fun x y => ⟨x.re * y.re - x.im * y.im, x.re * y.im + x.im * y.re⟩⟩

/-- Complex inverse `conj z / |z|²`, computed with exact rational arithmetic
(like `ℚ`, it sends `0` to `0`). -/
instance : Inv GaussRat :=
  ⟨fun x => ⟨x.re / (x.re ^ 2 + x.im ^ 2), -x.im / (x.re ^ 2 + x.im ^ 2)⟩⟩

@[simp] theorem zero_re : (0 : GaussRat).re = 0 := rfl

@[simp] theorem zero_im : (0 : GaussRat).im = 0 := rfl

@[simp] theorem one_re : (1 : GaussRat).re = 1 := rfl

@[simp] theorem one_im : (1 : GaussRat).im = 0 := rfl

@[simp] theorem add_re (x y : GaussRat) : (x + y).re = x.re + y.re := rfl

@[simp] theorem add_im (x y : GaussRat) : (x + y).im = x.im + y.im := rfl

@[simp] theorem neg_re (x : GaussRat) : (-x).re = -x.re := rfl

@[simp] theorem neg_im (x : GaussRat) : (-x).im = -x.im := rfl

@[simp] theorem mul_re (x y : GaussRat) : (x * y).re = x.re * y.re - x.im * y.im := rfl

@[simp] theorem mul_im (x y : GaussRat) : (x * y).im = x.re * y.im + x.im * y.re := rfl

@[simp] theorem inv_re (x : GaussRat) : x⁻¹.re = x.re / (x.re ^ 2 + x.im ^ 2) := rfl

@[simp] theorem inv_im (x : GaussRat) : x⁻¹.im = -x.im / (x.re ^ 2 + x.im ^ 2) := rfl

instance instAddCommGroup : AddCommGroup GaussRat where
  add_assoc := by intros; ext <;> simp <;> ring
  zero_add := by intros; ext <;> simp
  add_zero := by intros; ext <;> simp
  add_comm := by intros; ext <;> simp <;> ring
  neg_add_cancel := by intros; ext <;> simp
  nsmul := nsmulRec
  zsmul := zsmulRec

instance instCommRing : CommRing GaussRat where
  __ := instAddCommGroup
  left_distrib := by intros; ext <;> simp <;> ring
  right_distrib := by intros; ext <;> simp <;> ring
  zero_mul := by intros; ext <;> simp
  mul_zero := by intros; ext <;> simp
  mul_assoc := by intros; ext <;> simp <;> ring
  one_mul := by intros; ext <;> simp
  mul_one := by intros; ext <;> simp
  mul_comm := by intros; ext <;> simp <;> ring
  natCast k := ⟨k, 0⟩
  natCast_zero := by ext <;> simp [Nat.cast]
  natCast_succ := by intro k; ext <;> simp [Nat.cast]
  intCast k := ⟨k, 0⟩
  intCast_ofNat := by intro k; ext <;> rfl
  intCast_negSucc := by
    intro k
    apply gext
    · show ((Int.negSucc k : ℤ) : ℚ) = -((k + 1 : ℕ) : ℚ)
      rw [Int.cast_negSucc]
    · show (0 : ℚ) = -(0 : ℚ)
      simp

instance : StarRing GaussRat where
  star x := ⟨x.re, -x.im⟩
  star_involutive := by intro x; ext <;> simp
  star_mul := by intro x y; ext <;> simp <;> ring
  star_add := by intro x y; ext <;> simp <;> ring

@[simp] theorem star_re (x : GaussRat) : (star x).re = x.re := rfl

@[simp] theorem star_im (x : GaussRat) : (star x).im = -x.im := rfl

@[simp] theorem natCast_re (k : ℕ) : ((k : GaussRat)).re = k := rfl

@[simp] theorem natCast_im (k : ℕ) : ((k : GaussRat)).im = 0 := rfl

/-- The canonical ring embedding of ℚ into the Gaussian rationals. -/
def ofRat : ℚ →+* GaussRat where
  toFun q := ⟨q, 0⟩
  map_one' := rfl
  map_mul' := by intros; ext <;> simp
  map_zero' := rfl
  map_add' := by intros; ext <;> simp

@[simp] theorem ofRat_re (q : ℚ) : (ofRat q).re = q := rfl

@[simp] theorem ofRat_im (q : ℚ) : (ofRat q).im = 0 := rfl

@[simp] theorem star_ofRat (q : ℚ) : star (ofRat q) = ofRat q := by ext <;> simp

theorem ofRat_inv (q : ℚ) : (ofRat q)⁻¹ = ofRat q⁻¹ := by
  by_cases hq : q = 0
  · subst hq; ext <;> simp
  · apply gext
    · have h2 : (ofRat q).re ^ 2 + (ofRat q).im ^ 2 = q * q := by simp; ring
      rw [inv_re, h2, ofRat_re, div_mul_cancel_left₀ hq, ofRat_re]
    · simp

theorem two_eq_ofRat : (2 : GaussRat) = ofRat 2 := by
  have h : ((2 : ℕ) : GaussRat) = ofRat 2 := by
    apply gext
    · rw [natCast_re, ofRat_re]; norm_num
    · rw [natCast_im, ofRat_im]
  rw [← h, Nat.cast_ofNat]

theorem two_pow_eq (n : ℕ) : (2 ^ n : GaussRat) = ofRat (2 ^ n) := by
  rw [two_eq_ofRat, ← map_pow]

theorem inv_mul_two_pow (n : ℕ) : (2 ^ n : GaussRat)⁻¹ * (2 ^ n : GaussRat) = 1 := by
  rw [two_pow_eq, ofRat_inv, ← map_mul, inv_mul_cancel₀ (by positivity : (2 : ℚ) ^ n ≠ 0),
    map_one]

theorem star_inv_two_pow (n : ℕ) : star ((2 ^ n : GaussRat)⁻¹) = (2 ^ n : GaussRat)⁻¹ := by
  rw [two_pow_eq, ofRat_inv, star_ofRat]

end GaussRat

open Matrix GaussRat

/-- A Pauli string on `n` qubits: position `k` holds the single-qubit Pauli
operator acting on the `k`-th qubit of the qubit list, encoded as
`0 = I`, `1 = X`, `2 = Y`, `3 = Z`. -/
abbrev PauliStr (n : ℕ) := Fin n → Fin 4

/-- An observable as in the notebook's `PauliTerm`s: a Pauli tensor product
together with a scalar coefficient. -/
structure Observable (n : ℕ) where
  coeff : GaussRat
  str : PauliStr n

instance {n : ℕ} : DecidableEq (Observable n) := fun a b =>
  decidable_of_iff (a.coeff = b.coeff ∧ a.str = b.str) (by cases a; cases b; simp)

/-- A measurement setting as in `pyquil.experiment.ExperimentSetting`:
an input one-qubit product state per qubit (axis `0 = X`, `1 = Y`, `2 = Z`
together with an eigenvalue index) paired with the observable to measure. -/
structure ExperimentSetting (n : ℕ) where
  inState : Fin n → Fin 3 × Fin 2
  outOperator : Observable n

instance {n : ℕ} : DecidableEq (ExperimentSetting n) := fun a b =>
  decidable_of_iff (a.inState = b.inState ∧ a.outOperator = b.outOperator)
    (by cases a; cases b; simp)

/-- A result as in `pyquil.experiment.ExperimentResult`: the setting it was
obtained for, the estimated expectation value and its standard error
(the estimator only reads `setting.outOperator` and `expectation`). -/
structure ExperimentResult (n : ℕ) where
  setting : ExperimentSetting n
  expectation : GaussRat
  stdErr : GaussRat

instance {n : ℕ} : DecidableEq (ExperimentResult n) := fun a b =>
  decidable_of_iff (a.setting = b.setting ∧ a.expectation = b.expectation
    ∧ a.stdErr = b.stdErr) (by cases a; cases b; simp)

/-- `pyquil.experiment.zeros_state`: the all-zeros input state, i.e. the
`Z`-basis eigenstate with index `0` on every qubit of the list. -/
def zerosState (n : ℕ) : Fin n → Fin 3 × Fin 2 := fun _ => (2, 0)

/-- Modelled from the spec: `all_traceless_pauli_terms` is vendor library code
(`forest.benchmarking.utils`), not part of this repository's sources; per the
spec it enumerates "all non-identity Pauli tensor products on the qubit set".
We enumerate all Pauli strings except the all-identity one, which is the
string of index `0` under `finFunctionFinEquiv`. -/
def allTracelessPauliTerms (n : ℕ) : List (PauliStr n) :=
  (List.finRange (4 ^ n - 1)).map fun i =>
    finFunctionFinEquiv.symm ⟨i.1 + 1, Nat.add_lt_of_lt_sub i.isLt⟩

/-- `state_tomo_settings` from `src/unnamed/part_001` (lines 106-116): one
measurement setting per traceless Pauli term, pairing the all-zeros input
state with that observable (the vendor terms carry coefficient `1`). -/
def state_tomo_settings (n : ℕ) : List (ExperimentSetting n) :=
  (allTracelessPauliTerms n).map fun s => ⟨zerosState n, ⟨1, s⟩⟩

/-- The four single-qubit Pauli matrices, entrywise:
`pauli1 p a b` is the `(a, b)` entry of `I`, `X`, `Y` or `Z`. -/
def pauli1 (p : Fin 4) (a b : Fin 2) : GaussRat :=
  if p = 0 then (if a = b then 1 else 0)
  else if p = 1 then (if a = b then 0 else 1)
  else if p = 2 then (if a = b then 0 else if a = 0 then ⟨0, -1⟩ else ⟨0, 1⟩)
  else (if a = b then (if a = 0 then 1 else -1) else 0)

/-- The `2^n × 2^n` matrix of a Pauli string: the Kronecker product of its
single-qubit factors, written entrywise via base-2 digits of the row and
column indices (`finFunctionFinEquiv.symm i k` is the `k`-th digit of `i`). -/
def pauliMat {n : ℕ} (s : PauliStr n) : Matrix (Fin (2 ^ n)) (Fin (2 ^ n)) GaussRat :=
  Matrix.of fun i j =>
    ∏ k : Fin n, pauli1 (s k) (finFunctionFinEquiv.symm i k) (finFunctionFinEquiv.symm j k)

/-- `pyquil.simulation.tools.lifted_pauli`: the matrix representation of an
observable on the full qubit list — its Pauli tensor product scaled by its
coefficient. -/
def liftedPauli {n : ℕ} (obs : Observable n) : Matrix (Fin (2 ^ n)) (Fin (2 ^ n)) GaussRat :=
  obs.coeff • pauliMat obs.str

/-- `forest.benchmarking` `vec`: flatten a `d × d` matrix into a vector
indexed by (column, row) pairs — column-stacking vectorization. -/
def vec {d : ℕ} (A : Matrix (Fin d) (Fin d) GaussRat) : Fin d × Fin d → GaussRat :=
  fun p => A p.2 p.1

/-- `forest.benchmarking` `unvec`: the inverse of `vec`. -/
def unvec {d : ℕ} (v : Fin d × Fin d → GaussRat) : Matrix (Fin d) (Fin d) GaussRat :=
  Matrix.of fun r c => v (c, r)

/-- The measurement matrix assembled by `linear_inv_state_estimate`
(`src/unnamed/part_001`, lines 411-421): one row per result, in input order,
each row the conjugate-transposed vectorized matrix representation of the
result's observable. -/
def measurement_matrix {n : ℕ} (results : List (ExperimentResult n)) :
    Matrix (Fin results.length) (Fin (2 ^ n) × Fin (2 ^ n)) GaussRat :=
  Matrix.of fun m p => star (vec (liftedPauli (results.get m).setting.outOperator) p)

/-- The expectation vector assembled by `linear_inv_state_estimate`:
the results' expectation values in input order. -/
def expectations {n : ℕ} (results : List (ExperimentResult n)) :
    Fin results.length → GaussRat :=
  fun m => (results.get m).expectation

/-- The four Penrose conditions: `P` is the Moore-Penrose pseudo-inverse of
`M`.  This is the defining property of `scipy.linalg.pinv` (vendor code),
which the source calls; the pseudo-inverse is unique when it exists. -/
def IsMoorePenrosePinv {α β : Type} [Fintype α] [Fintype β] [DecidableEq α] [DecidableEq β]
    (M : Matrix α β GaussRat) (P : Matrix β α GaussRat) : Prop :=
  M * P * M = M ∧ P * M * P = P ∧ (M * P)ᴴ = M * P ∧ (P * M)ᴴ = P * M

instance {α β : Type} [Fintype α] [Fintype β] : DecidableEq (Matrix α β GaussRat) :=
  fun A B => decidable_of_iff (∀ i j, A i j = B i j) Matrix.ext_iff

open Classical in
/-- `scipy.linalg.pinv`, modelled by its defining property: the (unique)
matrix satisfying the four Penrose conditions, when one exists. -/
noncomputable def pinv {α β : Type} [Fintype α] [Fintype β] [DecidableEq α] [DecidableEq β]
    (M : Matrix α β GaussRat) : Matrix β α GaussRat :=
  if h : ∃ P, IsMoorePenrosePinv M P then h.choose else 0

/-- `linear_inv_state_estimate` from `src/unnamed/part_001` (lines 411-421):
stack the conjugate-transposed vectorized observables into `M`, stack the
expectations into `y`, solve `ρ_vec = pinv(M) @ y`, un-vectorize, and add
`I / 2^n`.  The qubit-list argument of the source enters only through its
length `n`.  The source performs no dimension check; the only failure is
`np.vstack` on an empty list of results, modelled by `none`. -/
noncomputable def linear_inv_state_estimate {n : ℕ} (results : List (ExperimentResult n)) :
    Option (Matrix (Fin (2 ^ n)) (Fin (2 ^ n)) GaussRat) :=
  if results = [] then none
  else some (unvec ((pinv (measurement_matrix results)).mulVec (expectations results))
    + (2 ^ n : GaussRat)⁻¹ • 1)

/-- A result record as read by the readout-correction step: a (real)
expectation value and its standard error.  The correction step involves a
square root, so it is modelled over `ℝ` rather than over `GaussRat`. -/
structure RealResult where
  expectation : ℝ
  stdErr : ℝ

/-- Error kinds of the correction step. -/
inductive CorrectionError where
  | divisionError
deriving DecidableEq

/-- Modelled from the spec: `correct_experiment_result` is pyquil vendor code,
not part of this repository's sources (`src/unnamed/part_001` lines 339-342
only call it).  Per spec §4.1: fail with a DivisionError kind when the
calibration expectation is zero; otherwise return `e' = e_r / e_c` and
`σ' = |e'| · sqrt((σ_r/e_r)² + (σ_c/e_c)²)`, treating the first term under
the square root as `0` when `e_r = 0`. -/
noncomputable def correct_experiment_result (r c : RealResult) :
    Except CorrectionError RealResult :=
  if c.expectation = 0 then Except.error CorrectionError.divisionError
  else Except.ok ⟨r.expectation / c.expectation,
    |r.expectation / c.expectation| *
      Real.sqrt ((if r.expectation = 0 then 0 else (r.stdErr / r.expectation) ^ 2)
        + (c.stdErr / c.expectation) ^ 2)⟩

/-- Quil instructions used by `ghz_program`. -/
inductive Instr where
  | gateH (q : ℕ)
  | gateCNOT (control target : ℕ)
  | declare (name : String) (memType : String) (size : ℕ)
  | measure (q : ℕ) (target : String × ℕ)
deriving DecidableEq

/-- `ghz_program` from `src/unnamed/part_000` (lines 82-89): H on the first
qubit, a CNOT for each `i` in `range(len(qubits) - 1)` on `(qubits[i],
qubits[i+1])`, a declaration of the `ro` bit register, and one MEASURE per
`enumerate(qubits)` entry.  Indexing an empty list fails in the source,
modelled by `none`. -/
def ghz_program (qubits : List ℕ) : Option (List Instr) :=
  match qubits with
  | [] => none
  | q0 :: rest =>
    some ([Instr.gateH q0]
      ++ (List.range ((q0 :: rest).length - 1)).map
          (fun i => Instr.gateCNOT ((q0 :: rest).getD i 0) ((q0 :: rest).getD (i + 1) 0))
      ++ [Instr.declare "ro" "BIT" (q0 :: rest).length]
      ++ ((q0 :: rest).enum.map fun p => Instr.measure p.2 ("ro", p.1)))

/-- The 15 non-identity 2-qubit Pauli observables in the notebook's setting
order, paired with the exact theoretical Bell-state expectations:
`X0X1 = +1`, `Y0Y1 = -1`, `Z0Z1 = +1`, all other terms `0` (and standard
error `0`). -/
def bellResults : List (ExperimentResult 2) := [
  ⟨⟨zerosState 2, ⟨1, ![0, 1]⟩⟩, 0, 0⟩,
  ⟨⟨zerosState 2, ⟨1, ![0, 2]⟩⟩, 0, 0⟩,
  ⟨⟨zerosState 2, ⟨1, ![0, 3]⟩⟩, 0, 0⟩,
  ⟨⟨zerosState 2, ⟨1, ![1, 0]⟩⟩, 0, 0⟩,
  ⟨⟨zerosState 2, ⟨1, ![1, 1]⟩⟩, 1, 0⟩,
  ⟨⟨zerosState 2, ⟨1, ![1, 2]⟩⟩, 0, 0⟩,
  ⟨⟨zerosState 2, ⟨1, ![1, 3]⟩⟩, 0, 0⟩,
  ⟨⟨zerosState 2, ⟨1, ![2, 0]⟩⟩, 0, 0⟩,
  ⟨⟨zerosState 2, ⟨1, ![2, 1]⟩⟩, 0, 0⟩,
  ⟨⟨zerosState 2, ⟨1, ![2, 2]⟩⟩, -1, 0⟩,
  ⟨⟨zerosState 2, ⟨1, ![2, 3]⟩⟩, 0, 0⟩,
  ⟨⟨zerosState 2, ⟨1, ![3, 0]⟩⟩, 0, 0⟩,
  ⟨⟨zerosState 2, ⟨1, ![3, 1]⟩⟩, 0, 0⟩,
  ⟨⟨zerosState 2, ⟨1, ![3, 2]⟩⟩, 0, 0⟩,
  ⟨⟨zerosState 2, ⟨1, ![3, 3]⟩⟩, 1, 0⟩]

/-- The ideal Bell-state density matrix
`[[1/2, 0, 0, 1/2], [0, 0, 0, 0], [0, 0, 0, 0], [1/2, 0, 0, 1/2]]`. -/
def bellRho : Matrix (Fin (2 ^ 2)) (Fin (2 ^ 2)) GaussRat :=
  Matrix.of ![![ofRat (1 / 2), 0, 0, ofRat (1 / 2)],
    ![0, 0, 0, 0], ![0, 0, 0, 0], ![ofRat (1 / 2), 0, 0, ofRat (1 / 2)]]

theorem allTracelessPauliTerms_length (n : ℕ) :
    (allTracelessPauliTerms n).length = 4 ^ n - 1 := by
  simp [allTracelessPauliTerms]

theorem symm_zero_eq_id (n : ℕ) :
    finFunctionFinEquiv.symm (⟨0, by positivity⟩ : Fin (4 ^ n)) = (fun _ => 0 : PauliStr n) := by
  funext k
  apply Fin.ext
  show (0 / 4 ^ (k : ℕ) % 4 : ℕ) = 0
  simp

theorem allTracelessPauliTerms_nodup (n : ℕ) : (allTracelessPauliTerms n).Nodup := by
  refine List.Nodup.map ?_ (List.nodup_finRange _)
  intro a b hab
  have h1 := finFunctionFinEquiv.symm.injective hab
  have h2 : a.1 + 1 = b.1 + 1 := congrArg Fin.val h1
  exact Fin.ext (by omega)

theorem allTracelessPauliTerms_mem {n : ℕ} (s : PauliStr n) :
    s ∈ allTracelessPauliTerms n ↔ s ≠ fun _ => 0 := by
  constructor
  · intro hs h0
    obtain ⟨i, _, hi⟩ := List.mem_map.mp hs
    have h1 : finFunctionFinEquiv.symm ⟨i.1 + 1, Nat.add_lt_of_lt_sub i.isLt⟩
        = finFunctionFinEquiv.symm ⟨0, by positivity⟩ := by
      rw [hi, h0, symm_zero_eq_id]
    have h2 := congrArg Fin.val (finFunctionFinEquiv.symm.injective h1)
    simp at h2
  · intro hs
    have hm0 : (finFunctionFinEquiv s).1 ≠ 0 := by
      intro h0
      apply hs
      have h1 : finFunctionFinEquiv s = (⟨0, by positivity⟩ : Fin (4 ^ n)) := Fin.ext h0
      calc s = finFunctionFinEquiv.symm (finFunctionFinEquiv s) :=
            (Equiv.symm_apply_apply _ s).symm
        _ = finFunctionFinEquiv.symm (⟨0, by positivity⟩ : Fin (4 ^ n)) := by rw [h1]
        _ = fun _ => 0 := symm_zero_eq_id n
    refine List.mem_map.mpr
      ⟨⟨(finFunctionFinEquiv s).1 - 1, by have := (finFunctionFinEquiv s).isLt; omega⟩,
        List.mem_finRange _, ?_⟩
    rw [Equiv.symm_apply_eq]
    refine Fin.ext ?_
    show (finFunctionFinEquiv s).1 - 1 + 1 = (finFunctionFinEquiv s).1
    omega

theorem moorePenrose_unique {α β : Type} [Fintype α] [Fintype β] [DecidableEq α] [DecidableEq β]
    {M : Matrix α β GaussRat} {P Q : Matrix β α GaussRat}
    (hP : IsMoorePenrosePinv M P) (hQ : IsMoorePenrosePinv M Q) : P = Q := by
  obtain ⟨hP1, hP2, hP3, hP4⟩ := hP
  obtain ⟨hQ1, hQ2, hQ3, hQ4⟩ := hQ
  have hMPQ : M * P = M * Q := by
    calc M * P = (M * P)ᴴ := hP3.symm
      _ = Pᴴ * Mᴴ := by rw [conjTranspose_mul]
      _ = Pᴴ * (M * Q * M)ᴴ := by rw [hQ1]
      _ = Pᴴ * (Mᴴ * (M * Q)ᴴ) := by rw [conjTranspose_mul (M * Q) M]
      _ = Pᴴ * Mᴴ * (M * Q) := by rw [hQ3, Matrix.mul_assoc]
      _ = (M * P)ᴴ * (M * Q) := by rw [conjTranspose_mul]
      _ = M * P * (M * Q) := by rw [hP3]
      _ = M * P * M * Q := by simp only [Matrix.mul_assoc]
      _ = M * Q := by rw [hP1]
  have hPQM : P * M = Q * M := by
    calc P * M = (P * M)ᴴ := hP4.symm
      _ = Mᴴ * Pᴴ := by rw [conjTranspose_mul]
      _ = (M * (Q * M))ᴴ * Pᴴ := by rw [← Matrix.mul_assoc, hQ1]
      _ = (Q * M)ᴴ * Mᴴ * Pᴴ := by rw [conjTranspose_mul M (Q * M)]
      _ = Q * M * Mᴴ * Pᴴ := by rw [hQ4]
      _ = Q * M * (Mᴴ * Pᴴ) := by rw [Matrix.mul_assoc]
      _ = Q * M * (P * M)ᴴ := by rw [← conjTranspose_mul]
      _ = Q * M * (P * M) := by rw [hP4]
      _ = Q * (M * P * M) := by simp only [Matrix.mul_assoc]
      _ = Q * M := by rw [hP1]
  calc P = P * M * P := hP2.symm
    _ = Q * M * P := by rw [hPQM]
    _ = Q * (M * P) := by rw [Matrix.mul_assoc]
    _ = Q * (M * Q) := by rw [hMPQ]
    _ = Q * M * Q := by rw [← Matrix.mul_assoc]
    _ = Q := hQ2

theorem pinv_eq {α β : Type} [Fintype α] [Fintype β] [DecidableEq α] [DecidableEq β]
    {M : Matrix α β GaussRat} {P : Matrix β α GaussRat}
    (hP : IsMoorePenrosePinv M P) : pinv M = P := by
  have hex : ∃ Q, IsMoorePenrosePinv M Q := ⟨P, hP⟩
  rw [pinv, dif_pos hex]
  exact moorePenrose_unique hex.choose_spec hP

theorem sum_digits_prod {n : ℕ} (f : Fin n → Fin 2 → GaussRat) :
    (∑ i : Fin (2 ^ n), ∏ k : Fin n, f k (finFunctionFinEquiv.symm i k))
      = ∏ k : Fin n, ∑ a : Fin 2, f k a := by
  rw [Fintype.prod_sum]
  exact Equiv.sum_comp finFunctionFinEquiv.symm (fun g : Fin n → Fin 2 => ∏ k, f k (g k))

theorem pauli1_orthog (u v : Fin 4) :
    (∑ b : Fin 2, ∑ a : Fin 2, star (pauli1 u a b) * pauli1 v a b)
      = if u = v then (2 : GaussRat) else 0 := by
  revert u v
  with_unfolding_all decide

theorem pauli1_trace (u : Fin 4) :
    (∑ a : Fin 2, pauli1 u a a) = if u = 0 then (2 : GaussRat) else 0 := by
  revert u
  with_unfolding_all decide

theorem pauli_vec_orthog {n : ℕ} (s t : PauliStr n) :
    (∑ p : Fin (2 ^ n) × Fin (2 ^ n), star (vec (pauliMat s) p) * vec (pauliMat t) p)
      = if s = t then (2 ^ n : GaussRat) else 0 := by
  have step1 : (∑ p : Fin (2 ^ n) × Fin (2 ^ n), star (vec (pauliMat s) p) * vec (pauliMat t) p)
      = ∑ c : Fin (2 ^ n), ∑ r : Fin (2 ^ n), ∏ k : Fin n,
          star (pauli1 (s k) (finFunctionFinEquiv.symm r k) (finFunctionFinEquiv.symm c k))
            * pauli1 (t k) (finFunctionFinEquiv.symm r k) (finFunctionFinEquiv.symm c k) := by
    rw [Fintype.sum_prod_type]
    refine Finset.sum_congr rfl fun c _ => Finset.sum_congr rfl fun r _ => ?_
    simp only [vec, pauliMat, Matrix.of_apply]
    rw [star_prod, ← Finset.prod_mul_distrib]
  rw [step1]
  have step2 : ∀ c : Fin (2 ^ n), (∑ r : Fin (2 ^ n), ∏ k : Fin n,
      star (pauli1 (s k) (finFunctionFinEquiv.symm r k) (finFunctionFinEquiv.symm c k))
        * pauli1 (t k) (finFunctionFinEquiv.symm r k) (finFunctionFinEquiv.symm c k))
      = ∏ k : Fin n, ∑ a : Fin 2,
          star (pauli1 (s k) a (finFunctionFinEquiv.symm c k))
            * pauli1 (t k) a (finFunctionFinEquiv.symm c k) := fun c =>
    sum_digits_prod (fun k a => star (pauli1 (s k) a (finFunctionFinEquiv.symm c k))
      * pauli1 (t k) a (finFunctionFinEquiv.symm c k))
  rw [Finset.sum_congr rfl fun c _ => step2 c]
  rw [sum_digits_prod (fun k b => ∑ a : Fin 2, star (pauli1 (s k) a b) * pauli1 (t k) a b)]
  rw [Finset.prod_congr rfl fun k _ => pauli1_orthog (s k) (t k)]
  by_cases hst : s = t
  · subst hst
    simp [Finset.prod_const]
  · rw [if_neg hst]
    obtain ⟨k₀, hk₀⟩ := Function.ne_iff.mp hst
    exact Finset.prod_eq_zero (Finset.mem_univ k₀) (by rw [if_neg hk₀])

theorem unvec_vec {d : ℕ} (A : Matrix (Fin d) (Fin d) GaussRat) : unvec (vec A) = A := rfl

theorem trace_unvec {d : ℕ} (v : Fin d × Fin d → GaussRat) :
    (unvec v).trace = ∑ r : Fin d, v (r, r) := by
  simp [Matrix.trace, Matrix.diag, unvec]

theorem pauliMat_trace_eq_zero {n : ℕ} {s : PauliStr n} (hs : s ≠ fun _ => 0) :
    (pauliMat s).trace = 0 := by
  have h1 : (pauliMat s).trace
      = ∑ i : Fin (2 ^ n), ∏ k : Fin n,
          pauli1 (s k) (finFunctionFinEquiv.symm i k) (finFunctionFinEquiv.symm i k) := by
    simp [Matrix.trace, Matrix.diag, pauliMat]
  rw [h1, sum_digits_prod (fun k a => pauli1 (s k) a a)]
  rw [Finset.prod_congr rfl fun k _ => pauli1_trace (s k)]
  obtain ⟨k₀, hk₀⟩ := Function.ne_iff.mp hs
  exact Finset.prod_eq_zero (Finset.mem_univ k₀) (by rw [if_neg hk₀])

theorem measM_mul_conjTranspose {n : ℕ} (rs : List (ExperimentResult n))
    (hcoeff : ∀ r ∈ rs, r.setting.outOperator.coeff = 1)
    (hnd : (rs.map fun r => r.setting.outOperator.str).Nodup) :
    measurement_matrix rs * (measurement_matrix rs)ᴴ = (2 ^ n : GaussRat) • 1 := by
  have hget : ∀ j k : Fin rs.length,
      (rs.get j).setting.outOperator.str = (rs.get k).setting.outOperator.str → j = k := by
    intro j k h
    have hj2 : ((rs.map fun r => r.setting.outOperator.str).get ⟨j.1, by simpa using j.2⟩)
        = (rs.get j).setting.outOperator.str := by
      rw [List.get_map]
    have hk2 : ((rs.map fun r => r.setting.outOperator.str).get ⟨k.1, by simpa using k.2⟩)
        = (rs.get k).setting.outOperator.str := by
      rw [List.get_map]
    have heq : ((rs.map fun r => r.setting.outOperator.str).get ⟨j.1, by simpa using j.2⟩)
        = ((rs.map fun r => r.setting.outOperator.str).get ⟨k.1, by simpa using k.2⟩) := by
      rw [hj2, hk2]; exact h
    have h3 := hnd.get_inj_iff.mp heq
    have h4 : j.1 = k.1 := by simpa using h3
    exact Fin.ext h4
  refine Matrix.ext fun j k => ?_
  rw [Matrix.mul_apply]
  have hj : (rs.get j).setting.outOperator.coeff = 1 := hcoeff _ (List.get_mem rs j.1 j.2)
  have hk : (rs.get k).setting.outOperator.coeff = 1 := hcoeff _ (List.get_mem rs k.1 k.2)
  calc (∑ p : Fin (2 ^ n) × Fin (2 ^ n),
          measurement_matrix rs j p * (measurement_matrix rs)ᴴ p k)
      = ∑ p : Fin (2 ^ n) × Fin (2 ^ n),
          star (vec (pauliMat (rs.get j).setting.outOperator.str) p)
            * vec (pauliMat (rs.get k).setting.outOperator.str) p := by
        refine Finset.sum_congr rfl fun p _ => ?_
        simp only [measurement_matrix, Matrix.conjTranspose_apply, Matrix.of_apply, star_star,
          liftedPauli, hj, hk, one_smul]
    _ = if (rs.get j).setting.outOperator.str = (rs.get k).setting.outOperator.str
          then (2 ^ n : GaussRat) else 0 := pauli_vec_orthog _ _
    _ = ((2 ^ n : GaussRat) • (1 : Matrix (Fin rs.length) (Fin rs.length) GaussRat)) j k := by
        by_cases hjk : j = k
        · subst hjk
          rw [if_pos rfl]
          simp [Matrix.one_apply_eq]
        · rw [if_neg (fun h => hjk (hget _ _ h))]
          simp [Matrix.one_apply_ne hjk]

theorem isPinv_smul_conjT {α β : Type} [Fintype α] [Fintype β] [DecidableEq α] [DecidableEq β]
    {M : Matrix α β GaussRat} (n : ℕ) (h : M * Mᴴ = (2 ^ n : GaussRat) • 1) :
    IsMoorePenrosePinv M ((2 ^ n : GaussRat)⁻¹ • Mᴴ) := by
  have hMP : M * ((2 ^ n : GaussRat)⁻¹ • Mᴴ) = 1 := by
    rw [Matrix.mul_smul, h, smul_smul, inv_mul_two_pow, one_smul]
  refine ⟨?_, ?_, ?_, ?_⟩
  · rw [hMP, Matrix.one_mul]
  · rw [Matrix.mul_assoc, hMP, Matrix.mul_one]
  · rw [hMP, Matrix.conjTranspose_one]
  · rw [Matrix.smul_mul, Matrix.conjTranspose_smul, star_inv_two_pow,
      Matrix.conjTranspose_mul, Matrix.conjTranspose_conjTranspose]

theorem trace_unvec_measM_mulVec {n : ℕ} (rs : List (ExperimentResult n))
    (z : Fin rs.length → GaussRat) :
    (unvec ((measurement_matrix rs)ᴴ.mulVec z)).trace
      = ∑ m : Fin rs.length, z m * (liftedPauli (rs.get m).setting.outOperator).trace := by
  rw [trace_unvec]
  have hterm : ∀ r : Fin (2 ^ n), ((measurement_matrix rs)ᴴ.mulVec z) (r, r)
      = ∑ m : Fin rs.length, liftedPauli (rs.get m).setting.outOperator r r * z m := by
    intro r
    simp only [Matrix.mulVec, Matrix.dotProduct, Matrix.conjTranspose_apply,
      measurement_matrix, Matrix.of_apply, star_star]
    refine Finset.sum_congr rfl fun m _ => ?_
    rfl
  rw [Finset.sum_congr rfl fun r _ => hterm r]
  rw [Finset.sum_comm]
  refine Finset.sum_congr rfl fun m _ => ?_
  rw [← Finset.sum_mul, mul_comm]
  congr 1

theorem enumFrom_eq_range_map : ∀ (l : List ℕ) (start : ℕ),
    l.enumFrom start = (List.range l.length).map fun i => (start + i, l.getD i 0) := by
  intro l
  induction l with
  | nil => intro start; simp
  | cons a t ih =>
    intro start
    show (start, a) :: t.enumFrom (start + 1) = _
    rw [ih (start + 1), List.length_cons, List.range_succ_eq_map, List.map_cons, List.map_map]
    refine congrArg₂ List.cons ?_ ?_
    · simp
    · refine List.map_congr_left fun i _ => ?_
      have h2 : start + 1 + i = start + (i + 1) := by omega
      simp [Function.comp, List.getD_cons_succ, h2]

theorem enum_eq_range_map (l : List ℕ) :
    l.enum = (List.range l.length).map fun i => (i, l.getD i 0) := by
  have h := enumFrom_eq_range_map l 0
  simpa using h

/-- C10: for every non-empty qubit list `q0 :: rest`, `ghz_program` returns
exactly one H gate on the first qubit, followed by one CNOT on each
consecutive pair `(qs[i], qs[i+1])` in order, a declaration of a `ro` bit
register of `len(qs)` bits, and one MEASURE of each qubit `qs[i]` into
`ro[i]`; being a pure function of an immutable list, it does not modify its
input. -/
theorem ghz_program_spec (q0 : ℕ) (rest : List ℕ) :
    ghz_program (q0 :: rest) = some
      (Instr.gateH q0
        :: (((List.range rest.length).map fun i =>
              Instr.gateCNOT ((q0 :: rest).getD i 0) ((q0 :: rest).getD (i + 1) 0))
          ++ [Instr.declare "ro" "BIT" (rest.length + 1)]
          ++ ((List.range (rest.length + 1)).map fun i =>
              Instr.measure ((q0 :: rest).getD i 0) ("ro", i)))) := by
  rw [ghz_program]
  congr 1
  rw [enum_eq_range_map, List.map_map]
  simp [List.length_cons]

/-- C9: for every qubit set of size `n`, the settings generator
`state_tomo_settings` enumerates exactly `4^n - 1` measurement settings,
one per non-identity Pauli tensor product on the qubit set (the listed
observables are distinct, have coefficient `1`, and range over exactly the
non-identity Pauli strings), and every yielded setting pairs the all-zeros
input state with its observable. -/
theorem state_tomo_settings_spec (n : ℕ) :
    (state_tomo_settings n).length = 4 ^ n - 1
    ∧ (∀ st ∈ state_tomo_settings n, st.inState = zerosState n)
    ∧ ((state_tomo_settings n).map fun st => st.outOperator).Nodup
    ∧ (∀ obs : Observable n,
        obs ∈ (state_tomo_settings n).map (fun st => st.outOperator)
          ↔ obs.coeff = 1 ∧ obs.str ≠ fun _ => 0) := by
  refine ⟨?_, ?_, ?_, ?_⟩
  · rw [state_tomo_settings, List.length_map, allTracelessPauliTerms_length]
  · intro st hst
    obtain ⟨s, _, rfl⟩ := List.mem_map.mp hst
    rfl
  · rw [state_tomo_settings, List.map_map]
    refine List.Nodup.map ?_ (allTracelessPauliTerms_nodup n)
    intro a b hab
    exact congrArg Observable.str hab
  · intro obs
    constructor
    · intro h
      obtain ⟨st, hst, rfl⟩ := List.mem_map.mp h
      obtain ⟨s, hs, rfl⟩ := List.mem_map.mp hst
      exact ⟨rfl, (allTracelessPauliTerms_mem s).mp hs⟩
    · rintro ⟨hc, hs⟩
      refine List.mem_map.mpr ⟨⟨zerosState n, obs⟩, ?_, rfl⟩
      refine List.mem_map.mpr ⟨obs.str, (allTracelessPauliTerms_mem _).mpr hs, ?_⟩
      cases obs
      simp_all

/-- C5: for every raw result and every calibration result with nonzero
calibration expectation, the Correction Step returns corrected expectation
`e' = e_r / e_c` and corrected standard error
`σ' = |e'| · sqrt((σ_r/e_r)² + (σ_c/e_c)²)`, with the first term under the
square root treated as `0` when `e_r = 0`; as a Lean function of the two
records it is pure and has no other side effects. -/
theorem correct_result_formula (r c : RealResult) (hc : c.expectation ≠ 0) :
    correct_experiment_result r c = Except.ok ⟨r.expectation / c.expectation,
      |r.expectation / c.expectation| *
        Real.sqrt ((if r.expectation = 0 then 0 else (r.stdErr / r.expectation) ^ 2)
          + (c.stdErr / c.expectation) ^ 2)⟩ := by
  rw [correct_experiment_result, if_neg hc]

theorem correct_result_formula_witness :
    ((⟨2, 0⟩ : RealResult)).expectation ≠ 0
    ∧ correct_experiment_result ⟨3, 1⟩ ⟨2, 0⟩ = Except.ok ⟨(3 : ℝ) / 2,
        |(3 : ℝ) / 2| *
          Real.sqrt ((if (3 : ℝ) = 0 then 0 else ((1 : ℝ) / 3) ^ 2) + ((0 : ℝ) / 2) ^ 2)⟩ :=
  ⟨by norm_num, correct_result_formula ⟨3, 1⟩ ⟨2, 0⟩ (by norm_num)⟩

/-- C6: for every raw result and every calibration result whose calibration
expectation is exactly zero, the Correction Step fails with the
DivisionError kind and does not return a corrected value. -/
theorem correct_result_zero_calibration (r c : RealResult) (hc : c.expectation = 0) :
    correct_experiment_result r c = Except.error CorrectionError.divisionError := by
  rw [correct_experiment_result, if_pos hc]

theorem correct_result_zero_calibration_witness :
    correct_experiment_result ⟨5, 2⟩ ⟨0, 1⟩ = Except.error CorrectionError.divisionError :=
  correct_result_zero_calibration ⟨5, 2⟩ ⟨0, 1⟩ rfl

/-- C8 counterexample: with raw expectation `0`, raw standard error `1` and
unit calibration (expectation `1`, error `0`), the spec's Correction Step
formula returns corrected standard error `0`, not the raw standard error
`1`: the first term of the error propagation is dropped when `e_r = 0` and
the remaining term is multiplied by `|e'| = 0`. -/
theorem correct_result_unit_calibration_cex :
    correct_experiment_result ⟨0, 1⟩ ⟨1, 0⟩ = Except.ok ⟨0, 0⟩
    ∧ correct_experiment_result ⟨0, 1⟩ ⟨1, 0⟩ ≠ Except.ok ⟨0, 1⟩ := by
  have h : correct_experiment_result ⟨0, 1⟩ ⟨1, 0⟩ = Except.ok ⟨0, 0⟩ := by
    rw [correct_experiment_result, if_neg (show ((⟨1, 0⟩ : RealResult)).expectation ≠ 0 from
      one_ne_zero)]
    norm_num
  refine ⟨h, ?_⟩
  rw [h]
  intro hcontra
  have h2 : ((⟨0, 0⟩ : RealResult)) = ⟨0, 1⟩ := by
    injection hcontra
  have h3 : (0 : ℝ) = 1 := congrArg RealResult.stdErr h2
  norm_num at h3

/-- C8 (amended): under unit calibration (calibration expectation exactly
`1`, calibration error exactly `0`), the Correction Step returns the raw
result unchanged provided the raw expectation is nonzero and the raw
standard error is nonnegative; when the raw expectation is zero the
corrected standard error is `0` rather than the raw one. -/
theorem correct_result_unit_calibration (r c : RealResult)
    (h1 : c.expectation = 1) (h2 : c.stdErr = 0) (h3 : r.expectation ≠ 0)
    (h4 : 0 ≤ r.stdErr) :
    correct_experiment_result r c = Except.ok r := by
  obtain ⟨re, rs⟩ := r
  obtain ⟨ce, cs⟩ := c
  replace h1 : ce = 1 := h1
  replace h2 : cs = 0 := h2
  replace h3 : re ≠ 0 := h3
  replace h4 : (0 : ℝ) ≤ rs := h4
  subst h1
  subst h2
  rw [correct_experiment_result,
    if_neg (show ((⟨1, 0⟩ : RealResult)).expectation ≠ 0 from one_ne_zero)]
  have hsig : |re / 1| *
      Real.sqrt ((if re = 0 then 0 else (rs / re) ^ 2) + ((0 : ℝ) / 1) ^ 2) = rs := by
    rw [if_neg h3, div_one]
    have h0 : ((0 : ℝ) / 1) ^ 2 = 0 := by norm_num
    rw [h0, add_zero, Real.sqrt_sq_eq_abs, abs_div, mul_comm,
      div_mul_cancel₀ _ (abs_ne_zero.mpr h3)]
    exact abs_of_nonneg h4
  rw [hsig, div_one]

theorem correct_result_unit_calibration_witness :
    ((⟨1, 0⟩ : RealResult)).expectation = 1 ∧ ((⟨1, 0⟩ : RealResult)).stdErr = 0
    ∧ ((⟨3, 1⟩ : RealResult)).expectation ≠ 0 ∧ (0 : ℝ) ≤ ((⟨3, 1⟩ : RealResult)).stdErr
    ∧ correct_experiment_result ⟨3, 1⟩ ⟨1, 0⟩ = Except.ok ⟨3, 1⟩ :=
  ⟨rfl, rfl, by norm_num, by norm_num,
    correct_result_unit_calibration ⟨3, 1⟩ ⟨1, 0⟩ rfl rfl (by norm_num) (by norm_num)⟩

/-- C1: for every ordered non-empty list of (observable, corrected
expectation) result pairs and every matrix `P` satisfying the Penrose
conditions for the measurement matrix `M` (that is, `P` is the
Moore-Penrose pseudo-inverse of `M`), the linear-inversion estimator
returns exactly `unvec(P @ y) + I/2^n`, where the rows of `M` are the
conjugate-transposed vectorized `2^n × 2^n` matrix representations of the
observables stacked in input order, `y` is the vector of corrected
expectations in the same order, and the vectorization convention is
consistent (`unvec ∘ vec = id`). -/
theorem linear_inv_estimate_eq_pinv_solution {n : ℕ} (results : List (ExperimentResult n))
    (hne : results ≠ [])
    (P : Matrix (Fin (2 ^ n) × Fin (2 ^ n)) (Fin results.length) GaussRat)
    (hP : IsMoorePenrosePinv (measurement_matrix results) P) :
    linear_inv_state_estimate results
      = some (unvec (P.mulVec (expectations results)) + (2 ^ n : GaussRat)⁻¹ • 1)
    ∧ (∀ m p, measurement_matrix results m p
        = star (vec (liftedPauli (results.get m).setting.outOperator) p))
    ∧ (∀ A : Matrix (Fin (2 ^ n)) (Fin (2 ^ n)) GaussRat, unvec (vec A) = A) := by
  refine ⟨?_, fun m p => rfl, fun A => rfl⟩
  rw [linear_inv_state_estimate, if_neg hne, pinv_eq hP]

theorem linear_inv_estimate_eq_pinv_solution_witness :
    ([⟨⟨zerosState 1, ⟨1, ![1]⟩⟩, 1, 0⟩] : List (ExperimentResult 1)) ≠ []
    ∧ linear_inv_state_estimate [⟨⟨zerosState 1, ⟨1, ![1]⟩⟩, 1, 0⟩]
      = some (unvec (((2 ^ 1 : GaussRat)⁻¹
            • (measurement_matrix [⟨⟨zerosState 1, ⟨1, ![1]⟩⟩, 1, 0⟩])ᴴ).mulVec
          (expectations [⟨⟨zerosState 1, ⟨1, ![1]⟩⟩, 1, 0⟩]))
        + (2 ^ 1 : GaussRat)⁻¹ • 1) := by
  have hMMH : measurement_matrix [⟨⟨zerosState 1, ⟨1, ![1]⟩⟩, 1, 0⟩]
      * (measurement_matrix ([⟨⟨zerosState 1, ⟨1, ![1]⟩⟩, 1, 0⟩] : List (ExperimentResult 1)))ᴴ
      = (2 ^ 1 : GaussRat) • 1 := by
    with_unfolding_all decide
  exact ⟨by simp, (linear_inv_estimate_eq_pinv_solution _ (by simp) _
    (isPinv_smul_conjT 1 hMMH)).1⟩

/-- C2 counterexample: for `n = 1` and an input list of length `2`
(which differs from `4^1 - 1 = 3`), the estimator does not fail: it
returns a result matrix.  The source performs no dimension check. -/
theorem linear_inv_no_dimension_check_cex :
    ([⟨⟨zerosState 1, ⟨1, ![1]⟩⟩, 1, 0⟩, ⟨⟨zerosState 1, ⟨1, ![2]⟩⟩, 0, 0⟩]
        : List (ExperimentResult 1)).length ≠ 4 ^ 1 - 1
    ∧ (linear_inv_state_estimate
        ([⟨⟨zerosState 1, ⟨1, ![1]⟩⟩, 1, 0⟩, ⟨⟨zerosState 1, ⟨1, ![2]⟩⟩, 0, 0⟩]
          : List (ExperimentResult 1))).isSome = true := by
  refine ⟨by simp, ?_⟩
  rw [linear_inv_state_estimate, if_neg (by simp)]
  rfl

/-- C2 (amended): the estimator performs no dimension check: for every
qubit count `n` it returns a matrix for exactly the non-empty input lists,
regardless of their length — lists of length ≠ 4^n − 1 are not rejected
with any error; only the empty list fails (the underlying `np.vstack`
raises there). -/
theorem linear_inv_returns_for_nonempty {n : ℕ} (results : List (ExperimentResult n)) :
    (linear_inv_state_estimate results).isSome = true ↔ results ≠ [] := by
  rw [linear_inv_state_estimate]
  by_cases h : results = []
  · simp [h]
  · simp [h]

/-- C3: feeding the estimator the full set of `4^n - 1` non-identity Pauli
observables, each paired with expectation value `0`, returns exactly the
maximally mixed state `I / 2^n` (stated for `n = m + 1 ≥ 1`; for `n = 0`
the input set is empty and the source's `np.vstack` fails). -/
theorem linear_inv_maximally_mixed (m : ℕ) :
    linear_inv_state_estimate
        ((allTracelessPauliTerms (m + 1)).map fun s =>
          (⟨⟨zerosState (m + 1), ⟨1, s⟩⟩, 0, 0⟩ : ExperimentResult (m + 1)))
      = some ((2 ^ (m + 1) : GaussRat)⁻¹ • 1) := by
  set rs := (allTracelessPauliTerms (m + 1)).map fun s =>
    (⟨⟨zerosState (m + 1), ⟨1, s⟩⟩, 0, 0⟩ : ExperimentResult (m + 1)) with hrs
  have hne : rs ≠ [] := by
    have hlen : rs.length = 4 ^ (m + 1) - 1 := by
      rw [hrs, List.length_map, allTracelessPauliTerms_length]
    intro h0
    rw [h0] at hlen
    simp at hlen
    have h4 : (4 : ℕ) ≤ 4 ^ (m + 1) := by
      calc (4 : ℕ) = 4 ^ 1 := by norm_num
        _ ≤ 4 ^ (m + 1) := Nat.pow_le_pow_right (by norm_num) (by omega)
    omega
  have hy : expectations rs = 0 := by
    funext p
    show (rs.get p).expectation = 0
    have hmem : rs.get p ∈ (allTracelessPauliTerms (m + 1)).map fun s =>
        (⟨⟨zerosState (m + 1), ⟨1, s⟩⟩, 0, 0⟩ : ExperimentResult (m + 1)) :=
      List.get_mem rs p.1 p.2
    obtain ⟨s, _, heq⟩ := List.mem_map.mp hmem
    rw [← heq]
  rw [linear_inv_state_estimate, if_neg hne, hy, Matrix.mulVec_zero]
  have hu : unvec (0 : Fin (2 ^ (m + 1)) × Fin (2 ^ (m + 1)) → GaussRat) = 0 := rfl
  rw [hu, zero_add]

/-- C7: for every input list consisting of the full set of `4^n - 1`
non-identity (traceless) Pauli observables — in any order, with unit
coefficients — the matrix returned by the estimator has trace exactly 1,
regardless of the expectation values supplied: the pseudo-inverse solution
lies in the column space of `Mᴴ`, the span of the vectorized traceless
observables, and the added `I/2^n` term contributes trace 1 (stated for
`n = m + 1 ≥ 1`). -/
theorem linear_inv_trace_one {m : ℕ} (results : List (ExperimentResult (m + 1)))
    (hperm : List.Perm (results.map fun r => r.setting.outOperator)
      ((allTracelessPauliTerms (m + 1)).map fun s => (⟨1, s⟩ : Observable (m + 1)))) :
    (linear_inv_state_estimate results).map Matrix.trace = some 1 := by
  have hobs : ∀ r ∈ results, ∃ s, s ∈ allTracelessPauliTerms (m + 1)
      ∧ r.setting.outOperator = ⟨1, s⟩ := by
    intro r hr
    have h1 : r.setting.outOperator ∈ results.map fun r => r.setting.outOperator :=
      List.mem_map_of_mem _ hr
    have h2 := hperm.mem_iff.mp h1
    obtain ⟨s, hs, heq⟩ := List.mem_map.mp h2
    exact ⟨s, hs, heq.symm⟩
  have htr : ∀ r ∈ results, (liftedPauli r.setting.outOperator).trace = 0 := by
    intro r hr
    obtain ⟨s, hs, heq⟩ := hobs r hr
    rw [heq]
    show ((1 : GaussRat) • pauliMat s).trace = 0
    rw [one_smul]
    exact pauliMat_trace_eq_zero ((allTracelessPauliTerms_mem s).mp hs)
  have hne : results ≠ [] := by
    have hlen := hperm.length_eq
    rw [List.length_map, List.length_map, allTracelessPauliTerms_length] at hlen
    intro h0
    rw [h0] at hlen
    simp at hlen
    have h4 : (4 : ℕ) ≤ 4 ^ (m + 1) := by
      calc (4 : ℕ) = 4 ^ 1 := by norm_num
        _ ≤ 4 ^ (m + 1) := Nat.pow_le_pow_right (by norm_num) (by omega)
    omega
  have htrace0 : (unvec ((pinv (measurement_matrix results)).mulVec
      (expectations results))).trace = 0 := by
    by_cases hex : ∃ P, IsMoorePenrosePinv (measurement_matrix results) P
    · obtain ⟨P, hP⟩ := hex
      rw [pinv_eq hP]
      have hPfact : P = (measurement_matrix results)ᴴ * (Pᴴ * P) := by
        obtain ⟨h1, h2, h3, h4⟩ := hP
        calc P = P * measurement_matrix results * P := h2.symm
          _ = (P * measurement_matrix results)ᴴ * P := by rw [h4]
          _ = (measurement_matrix results)ᴴ * Pᴴ * P := by rw [conjTranspose_mul]
          _ = (measurement_matrix results)ᴴ * (Pᴴ * P) := by rw [Matrix.mul_assoc]
      rw [hPfact, ← Matrix.mulVec_mulVec, trace_unvec_measM_mulVec]
      refine Finset.sum_eq_zero fun p _ => ?_
      rw [htr _ (List.get_mem results p.1 p.2), mul_zero]
    · rw [pinv, dif_neg hex, Matrix.zero_mulVec, trace_unvec]
      simp
  rw [linear_inv_state_estimate, if_neg hne, Option.map_some']
  congr 1
  rw [Matrix.trace_add, htrace0, zero_add, Matrix.trace_smul, Matrix.trace_one, smul_eq_mul]
  have hcast : ((Fintype.card (Fin (2 ^ (m + 1))) : ℕ) : GaussRat)
      = (2 ^ (m + 1) : GaussRat) := by
    rw [Fintype.card_fin]
    push_cast
    ring
  rw [hcast, inv_mul_two_pow]

theorem linear_inv_trace_one_witness :
    List.Perm (([⟨⟨zerosState 1, ⟨1, ![1]⟩⟩, 7, 0⟩, ⟨⟨zerosState 1, ⟨1, ![2]⟩⟩, -3, 0⟩,
        ⟨⟨zerosState 1, ⟨1, ![3]⟩⟩, 5, 0⟩] : List (ExperimentResult 1)).map
          fun r => r.setting.outOperator)
      ((allTracelessPauliTerms 1).map fun s => (⟨1, s⟩ : Observable 1))
    ∧ (linear_inv_state_estimate ([⟨⟨zerosState 1, ⟨1, ![1]⟩⟩, 7, 0⟩,
        ⟨⟨zerosState 1, ⟨1, ![2]⟩⟩, -3, 0⟩, ⟨⟨zerosState 1, ⟨1, ![3]⟩⟩, 5, 0⟩]
          : List (ExperimentResult 1))).map Matrix.trace
      = some 1 := by
  have hp : List.Perm (([⟨⟨zerosState 1, ⟨1, ![1]⟩⟩, 7, 0⟩, ⟨⟨zerosState 1, ⟨1, ![2]⟩⟩, -3, 0⟩,
      ⟨⟨zerosState 1, ⟨1, ![3]⟩⟩, 5, 0⟩] : List (ExperimentResult 1)).map
        fun r => r.setting.outOperator)
      ((allTracelessPauliTerms 1).map fun s => (⟨1, s⟩ : Observable 1)) := by
    with_unfolding_all decide
  exact ⟨hp, linear_inv_trace_one _ hp⟩

/-- C4: for `n = 2` qubits, feeding the estimator the 15 non-identity Pauli
observables (notebook order) with the exact theoretical Bell-state
expectations — `X0X1 = +1`, `Y0Y1 = -1`, `Z0Z1 = +1`, all other single-qubit
and cross terms `0` — returns exactly the matrix
`[[1/2, 0, 0, 1/2], [0, 0, 0, 0], [0, 0, 0, 0], [1/2, 0, 0, 1/2]]`
(exactly, in the exact arithmetic model, hence within tolerance `1e-9`). -/
theorem linear_inv_bell_state :
    linear_inv_state_estimate bellResults = some bellRho := by
  have hMMH : measurement_matrix bellResults * (measurement_matrix bellResults)ᴴ
      = (2 ^ 2 : GaussRat) • 1 :=
    measM_mul_conjTranspose _ (by decide) (by decide)
  have hpinv : pinv (measurement_matrix bellResults)
      = (2 ^ 2 : GaussRat)⁻¹ • (measurement_matrix bellResults)ᴴ :=
    pinv_eq (isPinv_smul_conjT 2 hMMH)
  have hval : unvec (((2 ^ 2 : GaussRat)⁻¹ • (measurement_matrix bellResults)ᴴ).mulVec
      (expectations bellResults)) + (2 ^ 2 : GaussRat)⁻¹ • 1 = bellRho := by
    with_unfolding_all decide
  calc linear_inv_state_estimate bellResults
      = some (unvec ((pinv (measurement_matrix bellResults)).mulVec
            (expectations bellResults)) + (2 ^ 2 : GaussRat)⁻¹ • 1) := by
        rw [linear_inv_state_estimate, if_neg (by decide)]
    _ = some (unvec (((2 ^ 2 : GaussRat)⁻¹ • (measurement_matrix bellResults)ᴴ).mulVec
            (expectations bellResults)) + (2 ^ 2 : GaussRat)⁻¹ • 1) := by rw [hpinv]
    _ = some bellRho := by rw [hval]
